import Mathlib

/-!
Shallow embedding of `src/enhancing/modules/stage1/quantizers.py`
(classes `BaseQuantizer`, `VectorQuantizer`, `GumbelQuantizer`).

Tensors are nested lists of rationals: a 3-D float tensor of shape
(b, t, d) is a `List (List (List ℚ))`.  Floating-point library kernels
that are irrational over ℚ (`torch.sqrt` inside `F.normalize`,
`F.gumbel_softmax`, `F.softmax`, `torch.log`) are passed in as explicit
function parameters; every claim proved below holds for all values of
these parameters unless a hypothesis pins them down.
-/

namespace Quantizers

abbrev T1 := List ℚ
abbrev T2 := List T1
abbrev T3 := List T2

/-- Sum of squares of a vector (`torch.sum(x ** 2, dim=...)` on one row). -/
def sumSq (v : T1) : ℚ := (v.map (fun x => x ^ 2)).sum

/-- Dot product of two rows (one entry of the einsum `b d, n d -> b n`). -/
def dot (a b : T1) : ℚ := (List.zipWith (· * ·) a b).sum

/-- The `eps` default of `torch.nn.functional.normalize` (1e-12). -/
def normEps : ℚ := 1 / 10 ^ 12

/-- `F.normalize(x, dim=-1)` on one last-dimension row: the row divided by
its L2 norm clamped below by `normEps`.  `sqrtF` is the floating-point
square root used by the norm computation. -/
def normalizeVec (sqrtF : ℚ → ℚ) (v : T1) : T1 :=
  v.map (fun x => x / max (sqrtF (sumSq v)) normEps)

/-- `self.norm` from `BaseQuantizer.__init__`:
`lambda x: F.normalize(x, dim=-1) if use_norm else x`, applied to one row. -/
def normF (useNorm : Bool) (sqrtF : ℚ → ℚ) (v : T1) : T1 :=
  if useNorm then normalizeVec sqrtF v else v

/-- Elementwise vector addition (shapes agree in every use in the code). -/
def addVec (a b : T1) : T1 := List.zipWith (· + ·) a b

/-- Elementwise vector subtraction. -/
def subVec (a b : T1) : T1 := List.zipWith (· - ·) a b

/-- Elementwise binary operation on 3-D tensors. -/
def zip3 (f : ℚ → ℚ → ℚ) (a b : T3) : T3 :=
  List.zipWith (List.zipWith (List.zipWith f)) a b

/-- Elementwise 3-D tensor addition. -/
def add3 (a b : T3) : T3 := zip3 (· + ·) a b

/-- Elementwise 3-D tensor subtraction. -/
def sub3 (a b : T3) : T3 := zip3 (· - ·) a b

/-- `torch.zeros_like(z)` for a 3-D tensor. -/
def zeros3 (z : T3) : T3 := z.map (List.map (List.map (fun _ => (0 : ℚ))))

/-- `torch.mean` over all entries of a 3-D tensor. -/
def mean3 (a : T3) : ℚ := a.flatten.flatten.sum / (a.flatten.flatten.length : ℚ)

/-- Row-major flattening of a 3-D tensor (the order torch stores values in). -/
def flatten3 (z : T3) : T1 := z.flatten.flatten

/-- Recursion core of `chunk`: `fuel` is an upper bound on the number of
steps, so that the recursion is structural. -/
def chunkGo (n : Nat) : Nat → List α → List (List α)
  | 0, _ => []
  | Nat.succ fuel, l => if l.isEmpty then [] else l.take n :: chunkGo n fuel (l.drop n)

/-- Split a list into consecutive chunks of length `n` (the regrouping done
by `Tensor.view` when the target shape has rows of length `n`). -/
def chunk (n : Nat) (l : List α) : List (List α) :=
  if n = 0 then [] else chunkGo n l.length l

/-- `z.view(-1, d)`: flatten and regroup into rows of length `d`. -/
def viewFlat (d : Nat) (z : T3) : T2 := chunk d (flatten3 z)

/-- Index of the first minimal entry of a row (`torch.argmin(d, dim=1)`
on one row). -/
def argminIdx (l : T1) : Nat :=
  ((List.range l.length).argmin (fun i => l.getD i 0)).getD 0

/-- Index of the first maximal entry of a row (`Tensor.argmax(dim=...)`
on one row). -/
def argmaxIdx (l : T1) : Nat :=
  ((List.range l.length).argmax (fun i => l.getD i 0)).getD 0

/-- One entry of the distance matrix `d` in `VectorQuantizer.quantize`:
`sum(zhat**2) + sum(e**2) - 2 * (zhat . e)`. -/
def distRow (a e : T1) : ℚ := sumSq a + sumSq e - 2 * dot a e

/-- The state of a `VectorQuantizer` module: constructor arguments plus the
`nn.Embedding(n_embed, embed_dim)` weight matrix.  `VectorQuantizer.__init__`
calls `super().__init__(use_norm=use_norm)`, so `straight_through` is the
`BaseQuantizer` default `True`; it is kept as a field so that both values of
the flag can be compared. -/
structure VQ where
  embed_dim : Nat
  n_embed : Nat
  beta : ℚ
  use_norm : Bool
  straight_through : Bool
  use_residual : Bool
  num_quantizers : Nat
  weight : T2

/-- `VectorQuantizer.quantize`.  `s` is the floating square root used inside
`F.normalize`.  Returns `(z_qnorm, loss, encoding_indices)`. -/
def quantize (s : ℚ → ℚ) (m : VQ) (z : T3) : T3 × ℚ × List (List Nat) :=
  let zn := (viewFlat m.embed_dim z).map (normF m.use_norm s)
  let en := m.weight.map (normF m.use_norm s)
  let d := zn.map (fun a => en.map (fun e => distRow a e))
  let flatIdx := d.map argminIdx
  let t := (z.headD []).length
  let encInd := chunk t flatIdx
  let z_q := encInd.map (fun r => r.map (fun n => m.weight.getD n []))
  let z_qnorm := z_q.map (fun r => r.map (normF m.use_norm s))
  let z_norm := z.map (fun r => r.map (normF m.use_norm s))
  let loss := mean3 (zip3 (fun p q => (p - q) ^ 2) z_qnorm z_norm) +
    m.beta * mean3 (zip3 (fun p q => (p - q) ^ 2) z_qnorm z_norm)
  (z_qnorm, loss, encInd)

/-- The index tensor returned by `BaseQuantizer.forward`: a (b, t) tensor in
the plain case, a (b, t, num_quantizers) tensor in the residual case. -/
inductive IdxOut where
  | plain (i : List (List Nat))
  | stacked (i : List (List (List Nat)))

/-- `torch.stack(encoding_indices, dim=-1)` for a list of (b, t) index
tensors: the result at (i, j) collects the (i, j) entries of the stacked
tensors in order. -/
def stackLast (ks : List (List (List Nat))) : List (List (List Nat)) :=
  match ks with
  | [] => []
  | A :: _ =>
    A.mapIdx (fun i row => row.mapIdx (fun j _ =>
      ks.map (fun B => (B.getD i []).getD j 0)))

/-- The `for _ in range(self.num_quantizers)` loop of
`BaseQuantizer.forward`: starting from the current `residual` and
accumulator `z_q`, runs `k` quantization stages and returns the final
accumulator together with the per-stage losses and index tensors in stage
order. -/
def resLoop (s : ℚ → ℚ) (m : VQ) : Nat → T3 → T3 → T3 × List ℚ × List (List (List Nat))
  | 0, _, z_q => (z_q, [], [])
  | Nat.succ k, residual, z_q =>
    let r := quantize s m residual
    let rest := resLoop s m k (sub3 residual r.1) (add3 z_q r.1)
    (rest.1, r.2.1 :: rest.2.1, r.2.2 :: rest.2.2)

/-- `BaseQuantizer.forward` (as inherited by `VectorQuantizer`).

Caveat: in residual mode with `num_quantizers = 0` the real code raises
`RuntimeError` at `torch.stack([])` (both `losses` and `encoding_indices`
are empty) and returns nothing, whereas this total model returns
`(zeros, 0, stacked [])`.  The theorems below about the residual branch
therefore carry the hypothesis `0 < num_quantizers`; none of them asserts
anything about the configuration where the program fails. -/
def forward (s : ℚ → ℚ) (m : VQ) (z : T3) : T3 × ℚ × IdxOut :=
  if ¬ m.use_residual then
    let r := quantize s m z
    let z_q := if m.straight_through then add3 z (sub3 r.1 z) else r.1
    (z_q, r.2.1, IdxOut.plain r.2.2)
  else
    let r := resLoop s m m.num_quantizers z (zeros3 z)
    let loss := r.2.1.sum / (r.2.1.length : ℚ)
    let z_q := if m.straight_through then add3 z (sub3 r.1 z) else r.1
    (z_q, loss, IdxOut.stacked (stackLast r.2.2))

/-- The state a `GumbelQuantizer` would hold if its constructor completed.
The `self.proj = nn.Linear(embed_dim, n_embed, 1)` projection is assigned
in `__init__` but never used by `quantize`, so it carries no observable
state here. -/
structure GQ where
  embed_dim : Nat
  n_embed : Nat
  temperature : ℚ
  kl_weight : ℚ
  use_norm : Bool
  use_residual : Bool
  num_quantizers : Nat
  weight : T2

/-- `GumbelQuantizer.__init__`.  After `super().__init__(False, use_norm)`,
the line `self.straight_through = straight_through` reads the local name
`straight_through`, which is not a parameter of this `__init__` and is not
bound anywhere in its scope or in the module, so Python raises `NameError`
before the constructor can finish; the constructor therefore never
produces a `GQ` value. -/
def gumbelInit (embed_dim n_embed : Nat) (temp_init kl_weight : ℚ)
    (use_norm use_residual : Bool) (num_quantizers : Nat) : Except String GQ :=
  Except.error "NameError: name straight_through is not defined"

/-- The weighted codebook combination `einsum('b t n, n d -> b t d')` at one
position: the sum over `n` of `p n * en n`, a vector of length `d`. -/
def weightedSum (d : Nat) (p : T1) (en : T2) : T1 :=
  (List.zipWith (fun c e => e.map (fun x => c * x)) p en).foldr addVec
    (List.replicate d 0)

/-- `GumbelQuantizer.quantize` in eval mode (`hard = True` forced).  The
floating-point kernels are parameters: `s` is the square root inside
`F.normalize`, `gs` is `F.gumbel_softmax(., tau=temp, dim=2, hard=hard)`
applied to one last-dimension row of logits (noise sampling included),
`softmaxF` is `F.softmax(., dim=2)` on one row and `logF` is `torch.log`.
Returns `(z_qnorm, loss, encoding_indices)`. -/
def gumbelQuantize (s : ℚ → ℚ) (gs : T1 → T1) (softmaxF : T1 → T1)
    (logF : ℚ → ℚ) (m : GQ) (z : T3) : T3 × ℚ × List (List Nat) :=
  let zn := (viewFlat m.embed_dim z).map (normF m.use_norm s)
  let en := m.weight.map (normF m.use_norm s)
  let logitsFlat := zn.map (fun a =>
    en.map (fun e => -sumSq a - sumSq e + 2 * dot a e))
  let t := (z.headD []).length
  let logits := chunk t logitsFlat
  let soft := logits.map (fun r => r.map gs)
  let z_qnorm := soft.map (fun r => r.map (fun p => weightedSum m.embed_dim p en))
  let qy := logits.map (fun r => r.map softmaxF)
  let klMat := qy.map (fun r => r.map (fun p =>
    (p.map (fun q => q * logF (q * m.n_embed + 1 / 10 ^ 10))).sum))
  let loss := m.kl_weight * (klMat.flatten.sum / (klMat.flatten.length : ℚ))
  let encInd := soft.map (fun r => r.map argmaxIdx)
  (z_qnorm, loss, encInd)

/-!
Heap-level model of `BaseQuantizer.forward`, for the frame property.

Torch tensors are views onto storage buffers; `sub_`/`add_` write their
target buffer in place, while `clone`, `zeros_like`, the out-of-place
arithmetic and `quantize` allocate fresh buffers.  The heap is the list of
storage buffers (row-major flattened values); tensors are indices into it.
The numeric content of each buffer is computed with the pure functions
above, so this model is `forward` with storage made explicit.
-/
abbrev Heap := List T1

/-- Reconstruct a (b, t, d) tensor from its row-major storage. -/
def unflatten3 (t d : Nat) (buf : T1) : T3 := chunk t (chunk d buf)

/-- `self.quantize` called on the tensor stored in buffer `zi`, with the
codebook weight read from buffer `wi`: reads both buffers, computes the
pure `quantize`, and allocates one fresh buffer for the returned quantized
tensor.  Returns the new heap, the reference to the result buffer, the
loss and the index tensor. -/
def quantizeH (s : ℚ → ℚ) (m : VQ) (t : Nat) (h : Heap) (zi wi : Nat) :
    Heap × Nat × ℚ × List (List Nat) :=
  let w := chunk m.embed_dim (h.getD wi [])
  let z := unflatten3 t m.embed_dim (h.getD zi [])
  let r := quantize s { m with weight := w } z
  (h ++ [flatten3 r.1], h.length, r.2.1, r.2.2)

/-- The residual loop of `forward` at heap level: `residual.clone()`
allocates, `quantize` allocates its result, `residual.sub_(z_qi)` writes
buffer `resRef` in place and `z_q.add_(z_qi)` writes buffer `zqRef` in
place. -/
def resLoopH (s : ℚ → ℚ) (m : VQ) (t wi : Nat) :
    Nat → Heap → Nat → Nat → Heap × List ℚ × List (List (List Nat))
  | 0, h, _, _ => (h, [], [])
  | Nat.succ k, h, resRef, zqRef =>
    let hc := h ++ [h.getD resRef []]
    let q := quantizeH s m t hc h.length wi
    let h3 := q.1.set resRef (subVec (q.1.getD resRef []) (q.1.getD q.2.1 []))
    let h4 := h3.set zqRef (addVec (h3.getD zqRef []) (h3.getD q.2.1 []))
    let rest := resLoopH s m t wi k h4 resRef zqRef
    (rest.1, q.2.2.1 :: rest.2.1, q.2.2.2 :: rest.2.2)

/-- `BaseQuantizer.forward` at heap level.  `zi` is the buffer of the input
`z`, `wi` the buffer of `self.embedding.weight`, `t` is `z.shape[1]`.  The
straight-through line `z_q = z + (z_q - z).detach()` allocates a fresh
buffer and rebinds the local name `z_q`; it writes nothing in place.
Returns the final heap, the buffer of the returned quantized tensor, the
loss and the index tensor. -/
def forwardHeap (s : ℚ → ℚ) (m : VQ) (t : Nat) (h0 : Heap) (zi wi : Nat) :
    Heap × Nat × ℚ × IdxOut :=
  if ¬ m.use_residual then
    let q := quantizeH s m t h0 zi wi
    if m.straight_through then
      (q.1 ++ [addVec (q.1.getD zi []) (subVec (q.1.getD q.2.1 []) (q.1.getD zi []))],
        q.1.length, q.2.2.1, IdxOut.plain q.2.2.2)
    else (q.1, q.2.1, q.2.2.1, IdxOut.plain q.2.2.2)
  else
    let h1 := h0 ++ [(h0.getD zi []).map (fun _ => (0 : ℚ))]
    let h2 := h1 ++ [h0.getD zi []]
    let r := resLoopH s m t wi m.num_quantizers h2 h1.length h0.length
    let loss := r.2.1.sum / (r.2.1.length : ℚ)
    let encInd := IdxOut.stacked (stackLast r.2.2)
    if m.straight_through then
      (r.1 ++ [addVec (r.1.getD zi [])
        (subVec (r.1.getD h0.length []) (r.1.getD zi []))],
        r.1.length, loss, encInd)
    else (r.1, h0.length, loss, encInd)

/-!
Specification-side description of the residual stages, used to state the
multi-stage decomposition claim: `stageR k` is the residual before stage
`k + 1`, `stageQ k`, `stageLoss k` and `stageIdx k` are the outputs of
stage `k + 1`.
-/

/-- The residual entering stage `k + 1`: `r_0 = z`, `r_k = r_(k-1) - q_k`. -/
def stageR (s : ℚ → ℚ) (m : VQ) (z : T3) : Nat → T3
  | 0 => z
  | Nat.succ k => sub3 (stageR s m z k) (quantize s m (stageR s m z k)).1

/-- The quantized output of stage `k + 1`. -/
def stageQ (s : ℚ → ℚ) (m : VQ) (z : T3) (k : Nat) : T3 :=
  (quantize s m (stageR s m z k)).1

/-- The loss of stage `k + 1`. -/
def stageLoss (s : ℚ → ℚ) (m : VQ) (z : T3) (k : Nat) : ℚ :=
  (quantize s m (stageR s m z k)).2.1

/-- The index tensor of stage `k + 1`. -/
def stageIdx (s : ℚ → ℚ) (m : VQ) (z : T3) (k : Nat) : List (List Nat) :=
  (quantize s m (stageR s m z k)).2.2

/-- The shape of a 3-D tensor: the lengths of all last-dimension rows. -/
def shape3 (a : T3) : List (List Nat) := a.map (fun r => r.map List.length)

/-- `a` is a rectangular tensor of shape (b, t, d). -/
def rect3 (b t d : Nat) (a : T3) : Prop :=
  a.length = b ∧ ∀ r ∈ a, r.length = t ∧ ∀ v ∈ r, v.length = d

instance (b t d : Nat) (a : T3) : Decidable (rect3 b t d a) := by
  unfold rect3; infer_instance

/-- Entry (i, j) of a nested list, as an `Option`. -/
def entry2 (p : List (List α)) (i j : Nat) : Option α := (p[i]?.getD [])[j]?

/-!  Concrete instances used to exercise the theorems below. -/

/-- A square-root stub for instances whose `use_norm` is `false`, where the
square root is never consulted. -/
def sZero : ℚ → ℚ := fun _ => 0

/-- A small `VectorQuantizer`: one-dimensional codebook `[[1], [5]]`,
normalization off, plain (non-residual) mode. -/
def mPlain : VQ where
  embed_dim := 1
  n_embed := 2
  beta := 0
  use_norm := false
  straight_through := true
  use_residual := false
  num_quantizers := 0
  weight := [[1], [5]]

/-- A (1, 1, 1) input tensor for `mPlain`. -/
def zPlain : T3 := [[[2]]]

/-- A residual-mode `VectorQuantizer` with two stages over the one-row
codebook `[[1]]`. -/
def mRes : VQ :=
  { mPlain with
    n_embed := 1
    use_residual := true
    num_quantizers := 2
    weight := [[1]] }

/-- Exact square root on the values reached by `mTiny` / `zTiny`: the norms
computed there are `sqrt 1 = 1` and `sqrt (10 ^ (-26)) = 10 ^ (-13)`. -/
def sTiny : ℚ → ℚ := fun x =>
  if x = 1 / 10 ^ 26 then 1 / 10 ^ 13 else if x = 1 then 1 else 0

/-- A normalizing `VectorQuantizer` whose single codebook row `[10 ^ (-13)]`
is nonzero but has L2 norm strictly below the `F.normalize` clamp
`normEps = 10 ^ (-12)`. -/
def mTiny : VQ :=
  { mPlain with
    n_embed := 1
    use_norm := true
    weight := [[1 / 10 ^ 13]] }

/-- A (1, 1, 1) input tensor for `mTiny`. -/
def zTiny : T3 := [[[1]]]

/-- Exact square root on the values reached by `mNorm` / `zNorm`:
`sqrt 25 = 5`. -/
def sNorm : ℚ → ℚ := fun x => if x = 25 then 5 else 0

/-- A normalizing `VectorQuantizer` with the single codebook row `[3, 4]`
of L2 norm 5. -/
def mNorm : VQ :=
  { mPlain with
    embed_dim := 2
    n_embed := 1
    use_norm := true
    weight := [[3, 4]] }

/-- A (1, 1, 2) input tensor for `mNorm`. -/
def zNorm : T3 := [[[3, 4]]]

/-- A row-function stub standing in for `F.gumbel_softmax` in concrete
instances; it preserves row length, as the real kernel does. -/
def gsId : T1 → T1 := fun v => v

/-- A small `GumbelQuantizer` state with codebook `[[1], [2]]` and
normalization off. -/
def mGumbel : GQ where
  embed_dim := 1
  n_embed := 2
  temperature := 1
  kl_weight := 0
  use_norm := false
  use_residual := false
  num_quantizers := 0
  weight := [[1], [2]]

/-- A (1, 1, 1) input tensor for `mGumbel`. -/
def zGumbel : T3 := [[[3]]]

/-- A two-buffer heap: buffer 0 stores a (1, 1, 1) input `z`, buffer 1 the
(1, 1) codebook weight. -/
def heap0 : Heap := [[2], [1]]

/-!  Lemmas about the basic operations. -/

theorem entry2_map (f : α → β) (p : List (List α)) (i j : Nat) :
    entry2 (p.map (fun r => r.map f)) i j = (entry2 p i j).map f := by
  unfold entry2
  rw [List.getElem?_map]
  cases p[i]? <;> simp

theorem argminIdx_lt (l : T1) (h : l ≠ []) : argminIdx l < l.length := by
  unfold argminIdx
  cases ho : (List.range l.length).argmin (fun i => l.getD i 0) with
  | none =>
    rw [List.argmin_eq_none, List.range_eq_nil] at ho
    exact absurd (List.length_eq_zero.mp ho) h
  | some mi =>
    have hm : mi ∈ (List.range l.length).argmin (fun i => l.getD i 0) := ho
    have := List.argmin_mem hm
    simpa using List.mem_range.mp this

theorem argminIdx_min (l : T1) (h : l ≠ []) :
    ∀ k, k < l.length → l.getD (argminIdx l) 0 ≤ l.getD k 0 := by
  intro k hk
  unfold argminIdx
  cases ho : (List.range l.length).argmin (fun i => l.getD i 0) with
  | none =>
    rw [List.argmin_eq_none, List.range_eq_nil] at ho
    exact absurd (List.length_eq_zero.mp ho) h
  | some mi =>
    have hm : mi ∈ (List.range l.length).argmin (fun i => l.getD i 0) := ho
    simpa using List.le_of_mem_argmin (List.mem_range.mpr hk) hm

theorem argmaxIdx_lt (l : T1) (h : l ≠ []) : argmaxIdx l < l.length := by
  unfold argmaxIdx
  cases ho : (List.range l.length).argmax (fun i => l.getD i 0) with
  | none =>
    rw [List.argmax_eq_none, List.range_eq_nil] at ho
    exact absurd (List.length_eq_zero.mp ho) h
  | some mi =>
    have hm : mi ∈ (List.range l.length).argmax (fun i => l.getD i 0) := ho
    have := List.argmax_mem hm
    simpa using List.mem_range.mp this

theorem chunkGo_fuel_irrel (n : Nat) (hn : n ≠ 0) :
    ∀ (f1 : Nat) (f2 : Nat) (l : List α), l.length ≤ f1 → l.length ≤ f2 →
      chunkGo n f1 l = chunkGo n f2 l := by
  intro f1
  induction f1 with
  | zero =>
    intro f2 l h1 h2
    have : l = [] := List.length_eq_zero.mp (Nat.le_zero.mp h1)
    subst this
    cases f2 <;> simp [chunkGo]
  | succ f1 ih =>
    intro f2 l h1 h2
    cases f2 with
    | zero =>
      have : l = [] := List.length_eq_zero.mp (Nat.le_zero.mp h2)
      subst this
      simp [chunkGo]
    | succ f2 =>
      by_cases hl : l = []
      · subst hl; simp [chunkGo]
      · simp only [chunkGo, List.isEmpty_iff, if_neg hl]
        have hlen := List.length_pos.mpr hl
        have hd1 : (l.drop n).length ≤ f1 := by
          rw [List.length_drop]; omega
        have hd2 : (l.drop n).length ≤ f2 := by
          rw [List.length_drop]; omega
        rw [ih f2 (l.drop n) hd1 hd2]

theorem chunk_nil_or_zero (c : Nat) (l : List α) (h : c = 0 ∨ l = []) :
    chunk c l = [] := by
  rcases h with h | h
  · simp [chunk, h]
  · subst h; cases hc : decide (c = 0) <;> simp_all [chunk, chunkGo]

theorem chunk_cons (c : Nat) (l : List α) (hc : c ≠ 0) (hl : l ≠ []) :
    chunk c l = l.take c :: chunk c (l.drop c) := by
  unfold chunk
  rw [if_neg hc, if_neg hc]
  cases hL : l.length with
  | zero => exact absurd (List.length_eq_zero.mp hL) hl
  | succ f =>
    have hee : l.isEmpty = false := by
      cases l with
      | nil => exact absurd rfl hl
      | cons a as => rfl
    simp only [chunkGo, hee, Bool.false_eq_true, if_false]
    congr 1
    apply chunkGo_fuel_irrel c hc
    · rw [List.length_drop]; omega
    · exact le_rfl

theorem chunk_shape (c : Nat) :
    ∀ (k : Nat) (l : List α), 0 < c → l.length = k * c →
      (chunk c l).length = k ∧ ∀ r ∈ chunk c l, r.length = c := by
  intro k
  induction k with
  | zero =>
    intro l hc hl
    simp only [Nat.zero_mul, List.length_eq_zero] at hl
    subst hl
    simp [chunk_nil_or_zero c [] (Or.inr rfl)]
  | succ k ih =>
    intro l hc hl
    have hcl : c ≤ l.length := by
      rw [hl, Nat.succ_mul]; exact Nat.le_add_left c (k * c)
    have hl0 : l ≠ [] := by
      intro h; rw [h] at hl; simp at hl; omega
    rw [chunk_cons c l (Nat.pos_iff_ne_zero.mp hc) hl0]
    have hdrop : (l.drop c).length = k * c := by
      rw [List.length_drop, hl, Nat.succ_mul]; omega
    obtain ⟨ih1, ih2⟩ := ih (l.drop c) hc hdrop
    refine ⟨by simp [ih1], ?_⟩
    intro r hr
    rcases List.mem_cons.mp hr with h | h
    · rw [h, List.length_take]; omega
    · exact ih2 r h

theorem chunk_mem :
    ∀ (n : Nat) (c : Nat) (l : List α), l.length ≤ n →
      ∀ r ∈ chunk c l, ∀ x ∈ r, x ∈ l := by
  intro n
  induction n with
  | zero =>
    intro c l hl r hr x hx
    have : l = [] := List.length_eq_zero.mp (Nat.le_zero.mp hl)
    rw [this, chunk_nil_or_zero c [] (Or.inr rfl)] at hr
    simp at hr
  | succ n ih =>
    intro c l hl r hr x hx
    by_cases hc : c = 0
    · rw [chunk_nil_or_zero c l (Or.inl hc)] at hr; simp at hr
    by_cases hl0 : l = []
    · rw [chunk_nil_or_zero c l (Or.inr hl0)] at hr; simp at hr
    rw [chunk_cons c l hc hl0] at hr
    rcases List.mem_cons.mp hr with h | h
    · exact List.take_subset c l (h ▸ hx)
    · have hlen : (l.drop c).length ≤ n := by
        rw [List.length_drop]
        have : 0 < l.length := List.length_pos.mpr hl0
        omega
      exact List.drop_subset c l (ih c (l.drop c) hlen r h x hx)

theorem chunk_entry2 (c : Nat) :
    ∀ (i : Nat) (l : List α) (j : Nat), j < c →
      entry2 (chunk c l) i j = l[i * c + j]? := by
  intro i
  induction i with
  | zero =>
    intro l j hj
    have hc : c ≠ 0 := by omega
    by_cases hl : l = []
    · subst hl
      simp [entry2, chunk_nil_or_zero c [] (Or.inr rfl)]
    · rw [chunk_cons c l hc hl]
      simp only [entry2, Nat.zero_mul, Nat.zero_add]
      simp [List.getElem?_take_of_lt hj]
  | succ i ih =>
    intro l j hj
    have hc : c ≠ 0 := by omega
    by_cases hl : l = []
    · subst hl
      simp [entry2, chunk_nil_or_zero c [] (Or.inr rfl)]
    · rw [chunk_cons c l hc hl]
      have : entry2 (l.take c :: chunk c (l.drop c)) (i + 1) j =
          entry2 (chunk c (l.drop c)) i j := by
        simp [entry2]
      rw [this, ih (l.drop c) j hj, List.getElem?_drop]
      congr 1
      ring

theorem flatten_length_rows (A : List (List α)) (d : Nat)
    (h : ∀ v ∈ A, v.length = d) : A.flatten.length = A.length * d := by
  induction A with
  | nil => simp
  | cons v A ih =>
    simp only [List.flatten_cons, List.length_append, List.length_cons]
    rw [h v (List.mem_cons_self v A), ih (fun w hw => h w (List.mem_cons_of_mem v hw))]
    ring

theorem flatten3_length (z : T3) (b t d : Nat) (h : rect3 b t d z) :
    (flatten3 z).length = b * t * d := by
  unfold flatten3
  have h1 : z.flatten.length = b * t := by
    rw [flatten_length_rows z t (fun r hr => (h.2 r hr).1), h.1]
  have h2 : ∀ v ∈ z.flatten, v.length = d := by
    intro v hv
    obtain ⟨r, hr, hvr⟩ := List.mem_flatten.mp hv
    exact (h.2 r hr).2 v hvr
  rw [flatten_length_rows z.flatten d h2, h1]

theorem normF_length (u : Bool) (s : ℚ → ℚ) (v : T1) :
    (normF u s v).length = v.length := by
  unfold normF normalizeVec
  cases u <;> simp

theorem getD_row_length (w : T2) (d n : Nat) (hn : n < w.length)
    (h : ∀ v ∈ w, v.length = d) : (w.getD n []).length = d := by
  rw [List.getD_eq_getElem?_getD, List.getElem?_eq_getElem hn]
  exact h w[n] (List.getElem_mem hn)

theorem entry2_mem (p : List (List α)) (i j : Nat) (x : α)
    (h : entry2 p i j = some x) : ∃ r, r ∈ p ∧ x ∈ r := by
  unfold entry2 at h
  cases hp : p[i]? with
  | none => rw [hp] at h; simp at h
  | some r =>
    rw [hp] at h
    exact ⟨r, List.getElem?_mem hp, List.getElem?_mem h⟩

/-!  Shape lemmas. -/

theorem cancel1 : ∀ (a c : T1), a.length = c.length →
    List.zipWith (· + ·) a (List.zipWith (· - ·) c a) = c := by
  intro a
  induction a with
  | nil =>
    intro c hc
    have : c = [] := List.length_eq_zero.mp hc.symm
    subst this
    rfl
  | cons x a ih =>
    intro c hc
    cases c with
    | nil => simp at hc
    | cons y c =>
      simp only [List.zipWith_cons_cons]
      rw [ih c (by simpa using hc)]
      norm_num

theorem cancel2 (d : Nat) : ∀ (A C : T2), A.length = C.length →
    (∀ v ∈ A, v.length = d) → (∀ v ∈ C, v.length = d) →
    List.zipWith (List.zipWith (· + ·)) A
      (List.zipWith (List.zipWith (· - ·)) C A) = C := by
  intro A
  induction A with
  | nil =>
    intro C hc _ _
    have : C = [] := List.length_eq_zero.mp hc.symm
    subst this
    rfl
  | cons r A ih =>
    intro C hc hA hC
    cases C with
    | nil => simp at hc
    | cons c C =>
      simp only [List.zipWith_cons_cons]
      rw [cancel1 r c (by
        rw [hA r (List.mem_cons_self r A), hC c (List.mem_cons_self c C)])]
      rw [ih C (by simpa using hc)
        (fun v hv => hA v (List.mem_cons_of_mem r hv))
        (fun v hv => hC v (List.mem_cons_of_mem c hv))]

theorem cancel3 (b t d : Nat) : ∀ (A C : T3), rect3 b t d A → rect3 b t d C →
    add3 A (sub3 C A) = C := by
  intro A
  induction A generalizing b with
  | nil =>
    intro C hA hC
    have hb : b = 0 := by simpa using hA.1.symm
    have : C = [] := by
      apply List.length_eq_zero.mp
      rw [hC.1, hb]
    subst this
    rfl
  | cons r A ih =>
    intro C hA hC
    cases C with
    | nil =>
      exfalso
      have h1 := hA.1
      have h2 := hC.1
      simp at h1 h2
      omega
    | cons c C =>
      show List.zipWith _ _ _ = _
      simp only [add3, sub3, zip3] at ih ⊢
      simp only [List.zipWith_cons_cons]
      obtain ⟨hrt, hrd⟩ := hA.2 r (List.mem_cons_self r A)
      obtain ⟨hct, hcd⟩ := hC.2 c (List.mem_cons_self c C)
      rw [cancel2 d r c (by rw [hrt, hct]) hrd hcd]
      have hA' : rect3 A.length t d A :=
        ⟨rfl, fun v hv => hA.2 v (List.mem_cons_of_mem r hv)⟩
      have hC' : rect3 A.length t d C := by
        refine ⟨?_, fun v hv => hC.2 v (List.mem_cons_of_mem c hv)⟩
        have h1 := hA.1
        have h2 := hC.1
        simp at h1 h2
        omega
      rw [ih A.length C hA' hC']

theorem rect1_zipWith (d : Nat) (f : ℚ → ℚ → ℚ) (a c : T1)
    (ha : a.length = d) (hc : c.length = d) :
    (List.zipWith f a c).length = d := by
  rw [List.length_zipWith, ha, hc, Nat.min_self]

theorem rect2_zip (f : ℚ → ℚ → ℚ) (d : Nat) : ∀ (t : Nat) (A C : T2),
    A.length = t → C.length = t →
    (∀ v ∈ A, v.length = d) → (∀ v ∈ C, v.length = d) →
    (List.zipWith (List.zipWith f) A C).length = t ∧
      ∀ v ∈ List.zipWith (List.zipWith f) A C, v.length = d := by
  intro t A
  induction A generalizing t with
  | nil =>
    intro C hA hC _ _
    have ht : t = 0 := by simpa using hA.symm
    have : C = [] := List.length_eq_zero.mp (by omega)
    subst this
    simp [← hA]
  | cons r A ih =>
    intro C hA hC hAd hCd
    cases C with
    | nil => exfalso; simp at hA hC; omega
    | cons c C =>
      simp only [List.zipWith_cons_cons]
      have ht : t = A.length + 1 := by simpa using hA.symm
      obtain ⟨ih1, ih2⟩ := ih A.length C rfl (by simp at hC; omega)
        (fun v hv => hAd v (List.mem_cons_of_mem r hv))
        (fun v hv => hCd v (List.mem_cons_of_mem c hv))
      refine ⟨by simp [ih1, ht], ?_⟩
      intro v hv
      rcases List.mem_cons.mp hv with h | h
      · rw [h]
        exact rect1_zipWith d f r c (hAd r (List.mem_cons_self r A))
          (hCd c (List.mem_cons_self c C))
      · exact ih2 v h

theorem rect3_zip3 (f : ℚ → ℚ → ℚ) (t d : Nat) : ∀ (b : Nat) (A C : T3),
    rect3 b t d A → rect3 b t d C → rect3 b t d (zip3 f A C) := by
  intro b A
  induction A generalizing b with
  | nil =>
    intro C hA hC
    have hb : b = 0 := by simpa using hA.1.symm
    have : C = [] := by
      apply List.length_eq_zero.mp
      rw [hC.1, hb]
    subst this
    exact ⟨by simpa using hb.symm, by simp [zip3]⟩
  | cons r A ih =>
    intro C hA hC
    cases C with
    | nil =>
      exfalso
      have h1 := hA.1
      have h2 := hC.1
      simp at h1 h2
      omega
    | cons c C =>
      simp only [zip3, List.zipWith_cons_cons]
      have hb : b = A.length + 1 := by simpa using hA.1.symm
      have hA' : rect3 A.length t d A :=
        ⟨rfl, fun v hv => hA.2 v (List.mem_cons_of_mem r hv)⟩
      have hC' : rect3 A.length t d C := by
        refine ⟨?_, fun v hv => hC.2 v (List.mem_cons_of_mem c hv)⟩
        have h2 := hC.1
        simp at h2
        omega
      have hrec := ih A.length C hA' hC'
      obtain ⟨hrt, hrd⟩ := hA.2 r (List.mem_cons_self r A)
      obtain ⟨hct, hcd⟩ := hC.2 c (List.mem_cons_self c C)
      obtain ⟨hz1, hz2⟩ := rect2_zip f d t r c hrt hct hrd hcd
      constructor
      · have hlen : (List.zipWith (List.zipWith (List.zipWith f)) A C).length =
            A.length := hrec.1
        simp only [List.length_cons, hlen, hb]
      · intro v hv
        rcases List.mem_cons.mp hv with h | h
        · rw [h]; exact ⟨hz1, hz2⟩
        · exact hrec.2 v h

theorem headD_length (z : T3) (b t d : Nat) (hrect : rect3 b t d z)
    (hz : z ≠ []) : (z.headD []).length = t := by
  cases z with
  | nil => exact absurd rfl hz
  | cons A zs => exact (hrect.2 A (List.mem_cons_self A zs)).1

theorem flatIdx_lt (s : ℚ → ℚ) (m : VQ) (z : T3) (hwne : m.weight ≠ []) :
    ∀ n ∈ (((viewFlat m.embed_dim z).map (normF m.use_norm s)).map
      (fun a => (m.weight.map (normF m.use_norm s)).map
        (fun e => distRow a e))).map argminIdx,
      n < m.weight.length := by
  intro n hn
  rcases List.mem_map.mp hn with ⟨drow, hdrow, rfl⟩
  rcases List.mem_map.mp hdrow with ⟨aN, _, rfl⟩
  have hlenr : (List.map (fun e => distRow aN e)
      (m.weight.map (normF m.use_norm s))).length = m.weight.length := by
    simp
  have hne : List.map (fun e => distRow aN e)
      (m.weight.map (normF m.use_norm s)) ≠ [] := by
    rw [← List.length_pos, hlenr]
    exact List.length_pos.mpr hwne
  have := argminIdx_lt _ hne
  rwa [hlenr] at this

/-!  Structural equations for `VectorQuantizer.quantize`. -/

/-- The index tensor returned by `quantize`, written out. -/
theorem quantize_idx (s : ℚ → ℚ) (m : VQ) (z : T3) :
    (quantize s m z).2.2 =
      chunk (z.headD []).length
        ((((viewFlat m.embed_dim z).map (normF m.use_norm s)).map
          (fun a => (m.weight.map (normF m.use_norm s)).map
            (fun e => distRow a e))).map argminIdx) := rfl

/-- The quantized tensor returned by `quantize` is the (normalized)
codebook lookup of the returned index tensor. -/
theorem quantize_fst (s : ℚ → ℚ) (m : VQ) (z : T3) :
    (quantize s m z).1 = (quantize s m z).2.2.map
      (fun r => r.map (fun n => normF m.use_norm s (m.weight.getD n []))) := by
  simp only [quantize, List.map_map]
  congr 1
  funext r
  simp [List.map_map, Function.comp]

/-- The index tensor returned by `GumbelQuantizer.quantize`, written out:
the per-position argmax of the sampled `soft_one_hot` rows. -/
theorem gumbel_idx (s : ℚ → ℚ) (gs : T1 → T1) (sf : T1 → T1) (lf : ℚ → ℚ)
    (m : GQ) (z : T3) :
    (gumbelQuantize s gs sf lf m z).2.2 =
      ((chunk (z.headD []).length
        (((viewFlat m.embed_dim z).map (normF m.use_norm s)).map
          (fun a => (m.weight.map (normF m.use_norm s)).map
            (fun e => -sumSq a - sumSq e + 2 * dot a e)))).map
        (fun r => r.map gs)).map (fun r => r.map argmaxIdx) := rfl

/-- Under the shapes the code runs with, `quantize` returns a tensor of the
same (b, t, d) shape as its input. -/
theorem quantize_rect (s : ℚ → ℚ) (m : VQ) (z : T3) (b t d : Nat)
    (hrect : rect3 b t d z) (hd : m.embed_dim = d) (h0t : 0 < t) (h0d : 0 < d)
    (hwlen : ∀ w ∈ m.weight, w.length = d) (hwne : m.weight ≠ []) :
    rect3 b t d (quantize s m z).1 := by
  subst hd
  rw [quantize_fst, quantize_idx]
  by_cases hz : z = []
  · subst hz
    have hb : b = 0 := by simpa using hrect.1.symm
    subst hb
    have h1 : viewFlat m.embed_dim ([] : T3) = [] :=
      chunk_nil_or_zero _ _ (Or.inr rfl)
    rw [h1]
    simp only [List.map_nil]
    rw [chunk_nil_or_zero _ _ (Or.inr rfl)]
    exact ⟨rfl, by simp⟩
  · have ht' : (z.headD []).length = t := headD_length z b t _ hrect hz
    have hflat : (flatten3 z).length = b * t * m.embed_dim :=
      flatten3_length z b t m.embed_dim hrect
    obtain ⟨hv1, hv2⟩ := chunk_shape m.embed_dim (b * t) (flatten3 z) h0d hflat
    have hlenflat : ((((viewFlat m.embed_dim z).map (normF m.use_norm s)).map
        (fun a => (m.weight.map (normF m.use_norm s)).map
          (fun e => distRow a e))).map argminIdx).length = b * t := by
      simp only [List.length_map, viewFlat]
      exact hv1
    obtain ⟨hc1, hc2⟩ := chunk_shape t b _ h0t hlenflat
    have hent := flatIdx_lt s m z hwne
    rw [ht']
    constructor
    · simp only [List.length_map]
      exact hc1
    · intro r' hr'
      rcases List.mem_map.mp hr' with ⟨r, hr, rfl⟩
      refine ⟨by simp only [List.length_map]; exact hc2 r hr, ?_⟩
      intro v hv
      rcases List.mem_map.mp hv with ⟨n, hn, rfl⟩
      have hnf := chunk_mem _ _ _ le_rfl r hr n hn
      have hlt : n < m.weight.length := hent n hnf
      rw [normF_length]
      exact getD_row_length m.weight m.embed_dim n hlt hwlen

/-- `zeros_like` preserves the shape of its argument. -/
theorem rect3_zeros3 (b t d : Nat) (z : T3) (h : rect3 b t d z) :
    rect3 b t d (zeros3 z) := by
  constructor
  · simp [zeros3, h.1]
  · intro r hr
    rcases List.mem_map.mp hr with ⟨A, hA, rfl⟩
    refine ⟨by simp [(h.2 A hA).1], ?_⟩
    intro v hv
    rcases List.mem_map.mp hv with ⟨w, hw, rfl⟩
    simp [(h.2 A hA).2 w hw]

/-- A rectangular tensor's shape list is a replicated rectangle. -/
theorem shape3_of_rect3 (b t d : Nat) (a : T3) (h : rect3 b t d a) :
    shape3 a = List.replicate b (List.replicate t d) := by
  unfold shape3
  rw [List.eq_replicate_iff]
  constructor
  · simp [h.1]
  · intro r hr
    rcases List.mem_map.mp hr with ⟨A, hA, rfl⟩
    rw [List.eq_replicate_iff]
    refine ⟨by simp [(h.2 A hA).1], ?_⟩
    intro x hx
    rcases List.mem_map.mp hx with ⟨v, hv, rfl⟩
    exact (h.2 A hA).2 v hv

/-- Replacing the `straight_through` flag does not change `quantize`. -/
theorem quantize_congr_st (s : ℚ → ℚ) (m : VQ) (z : T3) (c : Bool) :
    quantize s { m with straight_through := c } z = quantize s m z := rfl

/-- Replacing the `straight_through` flag does not change the residual
loop. -/
theorem resLoop_congr_st (s : ℚ → ℚ) (m : VQ) (c : Bool) :
    ∀ (k : Nat) (r a : T3),
      resLoop s { m with straight_through := c } k r a = resLoop s m k r a := by
  intro k
  induction k with
  | zero => intro r a; rfl
  | succ k ih =>
    intro r a
    simp only [resLoop, quantize_congr_st]
    rw [ih]

/-- The residual loop keeps the accumulated quantized tensor rectangular. -/
theorem resLoop_rect (s : ℚ → ℚ) (m : VQ) (b t d : Nat)
    (hd : m.embed_dim = d) (h0t : 0 < t) (h0d : 0 < d)
    (hwlen : ∀ w ∈ m.weight, w.length = d) (hwne : m.weight ≠ []) :
    ∀ (k : Nat) (r a : T3), rect3 b t d r → rect3 b t d a →
      rect3 b t d (resLoop s m k r a).1 := by
  intro k
  induction k with
  | zero => intro r a _ ha; exact ha
  | succ k ih =>
    intro r a hr ha
    have hq := quantize_rect s m r b t d hr hd h0t h0d hwlen hwne
    simp only [resLoop]
    exact ih _ _ (rect3_zip3 _ t d b r (quantize s m r).1 hr hq)
      (rect3_zip3 _ t d b a (quantize s m r).1 ha hq)

/-- C1: for every 3-D input `z`, the first component returned by
`VectorQuantizer.quantize` is, at each position (i, j), the codebook row
`embedding.weight[encoding_indices[i, j]]` (row-normalized exactly when
`use_norm` is true), where `encoding_indices` is the third returned
component: every returned quantized vector is an entry of the finite
codebook. -/
theorem vq_quantize_returns_codebook_rows (s : ℚ → ℚ) (m : VQ) (z : T3)
    (i j n : Nat) (hidx : entry2 (quantize s m z).2.2 i j = some n) :
    entry2 (quantize s m z).1 i j =
      some (normF m.use_norm s (m.weight.getD n [])) := by
  rw [quantize_fst, entry2_map, hidx]
  rfl

/-- Witness for C1 at `mPlain` / `zPlain`: position (0, 0) selects index 0
and the quantized vector is codebook row 0. -/
theorem vq_quantize_returns_codebook_rows_witness :
    entry2 (quantize sZero mPlain zPlain).2.2 0 0 = some 0 ∧
    entry2 (quantize sZero mPlain zPlain).1 0 0 =
      some (normF mPlain.use_norm sZero (mPlain.weight.getD 0 [])) :=
  ⟨by norm_num [quantize, entry2, chunk, chunkGo, viewFlat, flatten3, normF,
      mPlain, zPlain, sZero, argminIdx, distRow, sumSq, dot, List.argmin,
      List.argAux, List.range_succ],
   vq_quantize_returns_codebook_rows sZero mPlain zPlain 0 0 0
    (by norm_num [quantize, entry2, chunk, chunkGo, viewFlat, flatten3, normF,
      mPlain, zPlain, sZero, argminIdx, distRow, sumSq, dot, List.argmin,
      List.argAux, List.range_succ])⟩

/-- C2: every index returned by `VectorQuantizer.quantize` is an argmin,
over the codebook, of `d n = sumSq zhat + sumSq (e n) - 2 * dot zhat (e n)`
where `zhat` is the (normalized) input row of `z.view(-1, embed_dim)` the
position corresponds to and `e n` the (normalized) codebook row `n`. -/
theorem vq_quantize_index_is_argmin (s : ℚ → ℚ) (m : VQ) (z : T3)
    (hw : m.weight ≠ []) (i j n : Nat)
    (hj : j < (z.headD []).length)
    (hidx : entry2 (quantize s m z).2.2 i j = some n) :
    ∃ a, (viewFlat m.embed_dim z)[i * (z.headD []).length + j]? = some a ∧
      n < m.weight.length ∧
      ∀ k, k < m.weight.length →
        distRow (normF m.use_norm s a) (normF m.use_norm s (m.weight.getD n [])) ≤
        distRow (normF m.use_norm s a) (normF m.use_norm s (m.weight.getD k [])) := by
  rw [quantize_idx, chunk_entry2 _ i _ j hj, List.getElem?_map] at hidx
  rcases Option.map_eq_some'.mp hidx with ⟨drow, hdrow, hn⟩
  rw [List.getElem?_map] at hdrow
  rcases Option.map_eq_some'.mp hdrow with ⟨aN, haN, hdr2⟩
  rw [List.getElem?_map] at haN
  rcases Option.map_eq_some'.mp haN with ⟨a, ha, haN2⟩
  subst hn hdr2 haN2
  have hlenr : (List.map (fun e => distRow (normF m.use_norm s a) e)
      (m.weight.map (normF m.use_norm s))).length = m.weight.length := by
    simp
  have hne : List.map (fun e => distRow (normF m.use_norm s a) e)
      (m.weight.map (normF m.use_norm s)) ≠ [] := by
    rw [← List.length_pos, hlenr]
    exact List.length_pos.mpr hw
  have hgd : ∀ q, q < m.weight.length →
      (List.map (fun e => distRow (normF m.use_norm s a) e)
        (m.weight.map (normF m.use_norm s))).getD q 0 =
      distRow (normF m.use_norm s a) (normF m.use_norm s (m.weight.getD q [])) := by
    intro q hq
    rw [List.getD_eq_getElem?_getD, List.getElem?_map, List.getElem?_map,
      List.getElem?_eq_getElem hq]
    simp [List.getD_eq_getElem?_getD, List.getElem?_eq_getElem hq]
  have hidxlt := argminIdx_lt _ hne
  rw [hlenr] at hidxlt
  refine ⟨a, ha, hidxlt, ?_⟩
  intro k hk
  have hmin := argminIdx_min _ hne k (by rwa [hlenr])
  rw [hgd k hk, hgd _ hidxlt] at hmin
  exact hmin

/-- Witness for C2 at `mPlain` / `zPlain`: the input row `[2]` selects
index 0, whose distance 1 to codebook row `[1]` is minimal (row `[5]` is at
distance 9). -/
theorem vq_quantize_index_is_argmin_witness :
    mPlain.weight ≠ [] ∧ 0 < (zPlain.headD []).length ∧
    entry2 (quantize sZero mPlain zPlain).2.2 0 0 = some 0 ∧
    (∃ a, (viewFlat mPlain.embed_dim zPlain)[0 * (zPlain.headD []).length + 0]? = some a ∧
      0 < mPlain.weight.length ∧
      ∀ k, k < mPlain.weight.length →
        distRow (normF mPlain.use_norm sZero a)
            (normF mPlain.use_norm sZero (mPlain.weight.getD 0 [])) ≤
        distRow (normF mPlain.use_norm sZero a)
            (normF mPlain.use_norm sZero (mPlain.weight.getD k []))) :=
  ⟨by decide, by decide,
   by norm_num [quantize, entry2, chunk, chunkGo, viewFlat, flatten3, normF,
      mPlain, zPlain, sZero, argminIdx, distRow, sumSq, dot, List.argmin,
      List.argAux, List.range_succ],
   vq_quantize_index_is_argmin sZero mPlain zPlain (by decide) 0 0 0 (by decide)
    (by norm_num [quantize, entry2, chunk, chunkGo, viewFlat, flatten3, normF,
      mPlain, zPlain, sZero, argminIdx, distRow, sumSq, dot, List.argmin,
      List.argAux, List.range_succ])⟩

/-- C7: every index in the index tensors returned by
`VectorQuantizer.quantize` and by `GumbelQuantizer.quantize` lies in
`[0, n_embed)`, so the embedding-table lookups on those indices are in
bounds.  For the Gumbel case the sampled `F.gumbel_softmax` kernel `gs` is
arbitrary but, like the real kernel, preserves row length. -/
theorem quantize_indices_in_bounds :
    (∀ (s : ℚ → ℚ) (m : VQ) (z : T3), m.weight.length = m.n_embed →
      m.weight ≠ [] → ∀ i j n,
        entry2 (quantize s m z).2.2 i j = some n → n < m.n_embed) ∧
    (∀ (s : ℚ → ℚ) (gs : T1 → T1) (sf : T1 → T1) (lf : ℚ → ℚ) (m : GQ) (z : T3),
      m.weight.length = m.n_embed → m.weight ≠ [] →
      (∀ v, (gs v).length = v.length) → ∀ i j n,
        entry2 (gumbelQuantize s gs sf lf m z).2.2 i j = some n →
          n < m.n_embed) := by
  constructor
  · intro s m z hlen hw i j n hidx
    rw [quantize_idx] at hidx
    obtain ⟨r, hr, hnr⟩ := entry2_mem _ i j n hidx
    have hnflat := chunk_mem _ _ _ le_rfl r hr n hnr
    rcases List.mem_map.mp hnflat with ⟨drow, hdrow, hn⟩
    rcases List.mem_map.mp hdrow with ⟨aN, _, hdr⟩
    subst hn
    subst hdr
    have hlenr : (List.map (fun e => distRow aN e)
        (m.weight.map (normF m.use_norm s))).length = m.weight.length := by
      simp
    have hne : List.map (fun e => distRow aN e)
        (m.weight.map (normF m.use_norm s)) ≠ [] := by
      rw [← List.length_pos, hlenr]
      exact List.length_pos.mpr hw
    have := argminIdx_lt _ hne
    rw [hlenr, hlen] at this
    exact this
  · intro s gs sf lf m z hlen hw hgs i j n hidx
    rw [gumbel_idx, entry2_map] at hidx
    rcases Option.map_eq_some'.mp hidx with ⟨p, hp, hn⟩
    rw [entry2_map] at hp
    rcases Option.map_eq_some'.mp hp with ⟨q, hq, hpq⟩
    obtain ⟨r, hr, hqr⟩ := entry2_mem _ i j q hq
    have hqflat := chunk_mem _ _ _ le_rfl r hr q hqr
    rcases List.mem_map.mp hqflat with ⟨aN, _, hqe⟩
    subst hn hpq hqe
    have hlenq : (gs (List.map
        (fun e => -sumSq aN - sumSq e + 2 * dot aN e)
        (m.weight.map (normF m.use_norm s)))).length = m.weight.length := by
      rw [hgs]
      simp
    have hne : gs (List.map
        (fun e => -sumSq aN - sumSq e + 2 * dot aN e)
        (m.weight.map (normF m.use_norm s))) ≠ [] := by
      rw [← List.length_pos, hlenq]
      exact List.length_pos.mpr hw
    have := argmaxIdx_lt _ hne
    rw [hlenq, hlen] at this
    exact this

/-- Witness for C7: the plain quantizer at `mPlain` / `zPlain` returns
index 0 < 2, and the Gumbel quantizer at `mGumbel` / `zGumbel` (with the
length-preserving sample stub `gsId`) returns index 1 < 2. -/
theorem quantize_indices_in_bounds_witness :
    (mPlain.weight.length = mPlain.n_embed ∧ mPlain.weight ≠ [] ∧
      entry2 (quantize sZero mPlain zPlain).2.2 0 0 = some 0 ∧
      0 < mPlain.n_embed) ∧
    (mGumbel.weight.length = mGumbel.n_embed ∧ mGumbel.weight ≠ [] ∧
      (∀ v, (gsId v).length = v.length) ∧
      entry2 (gumbelQuantize sZero gsId gsId sZero mGumbel zGumbel).2.2 0 0 =
        some 1 ∧ 1 < mGumbel.n_embed) :=
  ⟨⟨by decide, by decide,
    by norm_num [quantize, entry2, chunk, chunkGo, viewFlat, flatten3, normF,
      mPlain, zPlain, sZero, argminIdx, distRow, sumSq, dot, List.argmin,
      List.argAux, List.range_succ],
    quantize_indices_in_bounds.1 sZero mPlain zPlain rfl (by decide) 0 0 0
      (by norm_num [quantize, entry2, chunk, chunkGo, viewFlat, flatten3, normF,
        mPlain, zPlain, sZero, argminIdx, distRow, sumSq, dot, List.argmin,
        List.argAux, List.range_succ])⟩,
   ⟨by decide, by decide, fun v => rfl,
    by norm_num [gumbelQuantize, entry2, chunk, chunkGo, viewFlat, flatten3,
      normF, mGumbel, zGumbel, sZero, gsId, argmaxIdx, sumSq, dot,
      List.argmax, List.argAux, List.range_succ],
    quantize_indices_in_bounds.2 sZero gsId gsId sZero mGumbel zGumbel rfl
      (by decide) (fun v => rfl) 0 0 1
      (by norm_num [gumbelQuantize, entry2, chunk, chunkGo, viewFlat, flatten3,
        normF, mGumbel, zGumbel, sZero, gsId, argmaxIdx, sumSq, dot,
        List.argmax, List.argAux, List.range_succ])⟩⟩

/-- C10: `VectorQuantizer.quantize` is deterministic: it consults no source
of randomness, so two calls on the same module state (same codebook weight
and configuration) with the same input return identical triples. -/
theorem quantize_deterministic (s : ℚ → ℚ) (m1 m2 : VQ) (z1 z2 : T3)
    (hm : m1 = m2) (hz : z1 = z2) : quantize s m1 z1 = quantize s m2 z2 := by
  rw [hm, hz]

/-- Witness for C10 at `mPlain` / `zPlain`. -/
theorem quantize_deterministic_witness :
    mPlain = mPlain ∧ zPlain = zPlain ∧
      quantize sZero mPlain zPlain = quantize sZero mPlain zPlain :=
  ⟨rfl, rfl, quantize_deterministic sZero mPlain mPlain zPlain zPlain rfl rfl⟩

/-- The first component of `forward`, written out by cases. -/
theorem forward_fst (s : ℚ → ℚ) (m : VQ) (z : T3) :
    (forward s m z).1 =
      if m.use_residual = true then
        (if m.straight_through = true then
          add3 z (sub3 (resLoop s m m.num_quantizers z (zeros3 z)).1 z)
        else (resLoop s m m.num_quantizers z (zeros3 z)).1)
      else
        (if m.straight_through = true then
          add3 z (sub3 (quantize s m z).1 z)
        else (quantize s m z).1) := by
  unfold forward
  cases hres : m.use_residual <;> simp [hres]

/-- C4: the straight-through estimator changes only gradients, never
values: on equal `quantize` results, `forward` with `straight_through` set
returns the same quantized tensor as `forward` with it cleared, since
`z + (z_q - z).detach()` equals `z_q` elementwise. -/
theorem straight_through_preserves_values (s : ℚ → ℚ) (m : VQ) (z : T3)
    (b t d : Nat) (hrect : rect3 b t d z) (hd : m.embed_dim = d)
    (h0t : 0 < t) (h0d : 0 < d) (hwlen : ∀ w ∈ m.weight, w.length = d)
    (hwne : m.weight ≠ []) :
    (forward s m z).1 = (forward s { m with straight_through := false } z).1 := by
  set mf := ({ m with straight_through := false } : VQ) with hmf
  have hu : mf.use_residual = m.use_residual := by rw [hmf]
  have hs : mf.straight_through = false := by rw [hmf]
  have hn : mf.num_quantizers = m.num_quantizers := by rw [hmf]
  have hqz : quantize s mf = quantize s m := by
    rw [hmf]
    funext w
    exact quantize_congr_st s m w false
  have hrl : ∀ (k : Nat) (r a : T3), resLoop s mf k r a = resLoop s m k r a := by
    rw [hmf]
    exact resLoop_congr_st s m false
  rw [forward_fst, forward_fst, hu, hs, hn, hqz, hrl]
  simp only [Bool.false_eq_true, if_false]
  cases hres : m.use_residual with
  | false =>
    simp only [Bool.false_eq_true, if_false]
    cases hst : m.straight_through with
    | false => simp
    | true =>
      simp only [if_true]
      have hq := quantize_rect s m z b t d hrect hd h0t h0d hwlen hwne
      exact cancel3 b t d z (quantize s m z).1 hrect hq
  | true =>
    simp only [if_true]
    cases hst : m.straight_through with
    | false => simp
    | true =>
      simp only [if_true]
      have hq := resLoop_rect s m b t d hd h0t h0d hwlen hwne
        m.num_quantizers z (zeros3 z) hrect (rect3_zeros3 b t d z hrect)
      exact cancel3 b t d z _ hrect hq

/-- Witness for C4 at `mPlain` / `zPlain` (shape (1, 1, 1)). -/
theorem straight_through_preserves_values_witness :
    rect3 1 1 1 zPlain ∧ mPlain.embed_dim = 1 ∧ 0 < 1 ∧
    (∀ w ∈ mPlain.weight, w.length = 1) ∧ mPlain.weight ≠ [] ∧
    (forward sZero mPlain zPlain).1 =
      (forward sZero { mPlain with straight_through := false } zPlain).1 :=
  ⟨by decide, rfl, by decide, by decide, by decide,
   straight_through_preserves_values sZero mPlain zPlain 1 1 1 (by decide)
    rfl (by decide) (by decide) (by decide) (by decide)⟩

/-- C6: `forward` returns a triple of quantized tensor, loss and index
tensor (a stacked index tensor when `use_residual` is set), and in the
non-residual case the quantized tensor has the same shape as the input.
The residual conjunct requires `0 < num_quantizers`: with zero stages the
real code raises `RuntimeError` at `torch.stack([])` and returns nothing,
so only loops that run at least one stage return. -/
theorem forward_returns_triple (s : ℚ → ℚ) (m : VQ) (z : T3)
    (b t d : Nat) (hrect : rect3 b t d z) (hd : m.embed_dim = d)
    (h0t : 0 < t) (h0d : 0 < d) (hwlen : ∀ w ∈ m.weight, w.length = d)
    (hwne : m.weight ≠ []) :
    (m.use_residual = false →
      shape3 (forward s m z).1 = shape3 z ∧
      ∃ p, (forward s m z).2.2 = IdxOut.plain p) ∧
    (m.use_residual = true → 0 < m.num_quantizers →
      ∃ q l ix, forward s m z = (q, l, IdxOut.stacked ix)) := by
  constructor
  · intro hres
    have hq := quantize_rect s m z b t d hrect hd h0t h0d hwlen hwne
    constructor
    · rw [forward_fst, hres]
      simp only [Bool.false_eq_true, if_false]
      cases hst : m.straight_through with
      | false =>
        simp only [Bool.false_eq_true, if_false]
        rw [shape3_of_rect3 b t d _ hq, shape3_of_rect3 b t d z hrect]
      | true =>
        simp only [if_true]
        have hout : rect3 b t d (add3 z (sub3 (quantize s m z).1 z)) :=
          rect3_zip3 _ t d b z (sub3 (quantize s m z).1 z) hrect
            (rect3_zip3 _ t d b (quantize s m z).1 z hq hrect)
        rw [shape3_of_rect3 b t d _ hout, shape3_of_rect3 b t d z hrect]
    · simp only [forward, hres]
      simp
  · intro hres _
    simp only [forward, hres]
    simp

/-- Witness for C6: the non-residual case at `mPlain` / `zPlain` and the
residual case at `mRes` / `zPlain`, whose loop runs two stages. -/
theorem forward_returns_triple_witness :
    (rect3 1 1 1 zPlain ∧ mPlain.use_residual = false ∧
      shape3 (forward sZero mPlain zPlain).1 = shape3 zPlain ∧
      ∃ p, (forward sZero mPlain zPlain).2.2 = IdxOut.plain p) ∧
    (mRes.use_residual = true ∧ 0 < mRes.num_quantizers ∧
      ∃ q l ix, forward sZero mRes zPlain = (q, l, IdxOut.stacked ix)) :=
  ⟨⟨by decide, rfl,
    (forward_returns_triple sZero mPlain zPlain 1 1 1 (by decide) rfl
      (by decide) (by decide) (by decide) (by decide)).1 rfl⟩,
   ⟨rfl, by decide,
    (forward_returns_triple sZero mRes zPlain 1 1 1 (by decide) rfl
      (by decide) (by decide) (by decide) (by decide)).2 rfl (by decide)⟩⟩

/-- Peeling one stage off the front of the residual recurrence. -/
theorem stageR_shift (s : ℚ → ℚ) (m : VQ) (r : T3) :
    ∀ j, stageR s m r (j + 1) =
      stageR s m (sub3 r (quantize s m r).1) j := by
  intro j
  induction j with
  | zero => rfl
  | succ j ih =>
    show sub3 (stageR s m r (j + 1)) (quantize s m (stageR s m r (j + 1))).1 = _
    rw [ih]
    rfl

/-- The residual loop computes exactly the per-stage outputs of the
residual recurrence, in stage order, and sums the stage quantizations onto
its accumulator. -/
theorem resLoop_spec (s : ℚ → ℚ) (m : VQ) :
    ∀ (k : Nat) (r a : T3),
      resLoop s m k r a =
        ((List.range k).foldl (fun acc j => add3 acc (stageQ s m r j)) a,
         (List.range k).map (stageLoss s m r),
         (List.range k).map (stageIdx s m r)) := by
  intro k
  induction k with
  | zero => intro r a; simp [resLoop]
  | succ k ih =>
    intro r a
    have hQ : ∀ j, stageQ s m r (j + 1) =
        stageQ s m (sub3 r (quantize s m r).1) j := fun j => by
      unfold stageQ
      rw [stageR_shift]
    have hL : ∀ j, stageLoss s m r (j + 1) =
        stageLoss s m (sub3 r (quantize s m r).1) j := fun j => by
      unfold stageLoss
      rw [stageR_shift]
    have hI : ∀ j, stageIdx s m r (j + 1) =
        stageIdx s m (sub3 r (quantize s m r).1) j := fun j => by
      unfold stageIdx
      rw [stageR_shift]
    simp only [resLoop]
    rw [ih, List.range_succ_eq_map]
    simp only [List.foldl_cons, List.map_cons, List.map_map, List.foldl_map,
      Prod.mk.injEq]
    refine ⟨?_, ?_, ?_⟩
    · have hfun : (fun (acc : T3) (j : Nat) => add3 acc (stageQ s m r (Nat.succ j))) =
          fun acc j => add3 acc (stageQ s m (sub3 r (quantize s m r).1) j) := by
        funext acc j
        rw [hQ j]
      rw [← hfun]
      rfl
    · have hfun : (stageLoss s m r ∘ Nat.succ) =
          stageLoss s m (sub3 r (quantize s m r).1) := by
        funext j
        exact hL j
      rw [hfun]
      rfl
    · have hfun : (stageIdx s m r ∘ Nat.succ) =
          stageIdx s m (sub3 r (quantize s m r).1) := by
        funext j
        exact hI j
      rw [hfun]
      rfl

/-- Every stage residual stays rectangular. -/
theorem stageR_rect (s : ℚ → ℚ) (m : VQ) (z : T3) (b t d : Nat)
    (hrect : rect3 b t d z) (hd : m.embed_dim = d) (h0t : 0 < t) (h0d : 0 < d)
    (hwlen : ∀ w ∈ m.weight, w.length = d) (hwne : m.weight ≠ []) :
    ∀ j, rect3 b t d (stageR s m z j) := by
  intro j
  induction j with
  | zero => exact hrect
  | succ j ih =>
    exact rect3_zip3 _ t d b _ _ ih
      (quantize_rect s m _ b t d ih hd h0t h0d hwlen hwne)

/-- Summing rectangular tensors onto a rectangular accumulator stays
rectangular. -/
theorem foldl_add3_rect (b t d : Nat) (Q : Nat → T3) :
    ∀ (js : List Nat) (acc : T3), rect3 b t d acc →
      (∀ j ∈ js, rect3 b t d (Q j)) →
      rect3 b t d (js.foldl (fun acc j => add3 acc (Q j)) acc) := by
  intro js
  induction js with
  | nil => intro acc ha _; exact ha
  | cons j js ih =>
    intro acc ha hj
    simp only [List.foldl_cons]
    exact ih _ (rect3_zip3 _ t d b acc (Q j) ha (hj j (List.mem_cons_self j js)))
      (fun x hx => hj x (List.mem_cons_of_mem _ hx))

/-- C3: in residual mode, `forward` runs exactly `num_quantizers` stages of
the recurrence `r 0 = z`, `q (k+1) = quantize (r k)`, `r (k+1) = r k - q (k+1)`:
the returned quantized tensor is the sum of the per-stage quantizations,
the returned loss is the arithmetic mean of the per-stage losses, and the
returned indices are the per-stage index tensors stacked along a new last
dimension in stage order. -/
theorem residual_forward_decomposition (s : ℚ → ℚ) (m : VQ) (z : T3)
    (b t d : Nat) (hres : m.use_residual = true) (hK : 0 < m.num_quantizers)
    (hrect : rect3 b t d z) (hd : m.embed_dim = d) (h0t : 0 < t) (h0d : 0 < d)
    (hwlen : ∀ w ∈ m.weight, w.length = d) (hwne : m.weight ≠ []) :
    (forward s m z).1 =
      (List.range m.num_quantizers).foldl
        (fun acc k => add3 acc (stageQ s m z k)) (zeros3 z) ∧
    (forward s m z).2.1 =
      ((List.range m.num_quantizers).map (stageLoss s m z)).sum /
        (m.num_quantizers : ℚ) ∧
    (forward s m z).2.2 =
      IdxOut.stacked (stackLast
        ((List.range m.num_quantizers).map (stageIdx s m z))) := by
  have hspec := resLoop_spec s m m.num_quantizers z (zeros3 z)
  have hfoldrect : rect3 b t d ((List.range m.num_quantizers).foldl
      (fun acc k => add3 acc (stageQ s m z k)) (zeros3 z)) := by
    refine foldl_add3_rect b t d _ _ _ (rect3_zeros3 b t d z hrect) ?_
    intro j _
    exact quantize_rect s m _ b t d
      (stageR_rect s m z b t d hrect hd h0t h0d hwlen hwne j)
      hd h0t h0d hwlen hwne
  have hfw : forward s m z =
      (if m.straight_through = true then
         add3 z (sub3 (resLoop s m m.num_quantizers z (zeros3 z)).1 z)
       else (resLoop s m m.num_quantizers z (zeros3 z)).1,
       (resLoop s m m.num_quantizers z (zeros3 z)).2.1.sum /
         ((resLoop s m m.num_quantizers z (zeros3 z)).2.1.length : ℚ),
       IdxOut.stacked (stackLast
         (resLoop s m m.num_quantizers z (zeros3 z)).2.2)) := by
    unfold forward
    rw [hres]
    simp
  rw [hfw, hspec]
  refine ⟨?_, ?_, ?_⟩
  · show (if m.straight_through = true then
        add3 z (sub3 ((List.range m.num_quantizers).foldl
          (fun acc j => add3 acc (stageQ s m z j)) (zeros3 z)) z)
      else (List.range m.num_quantizers).foldl
        (fun acc j => add3 acc (stageQ s m z j)) (zeros3 z)) = _
    cases hst : m.straight_through with
    | false => simp
    | true =>
      rw [if_pos rfl]
      exact cancel3 b t d z _ hrect hfoldrect
  · show ((List.range m.num_quantizers).map (stageLoss s m z)).sum /
        ((((List.range m.num_quantizers).map (stageLoss s m z)).length : Nat) : ℚ) = _
    simp [List.length_map, List.length_range]
  · rfl

/-- Witness for C3 at `mRes` / `zPlain`: two residual stages over the
codebook `[[1]]`. -/
theorem residual_forward_decomposition_witness :
    mRes.use_residual = true ∧ 0 < mRes.num_quantizers ∧
    rect3 1 1 1 zPlain ∧ mRes.embed_dim = 1 ∧
    (forward sZero mRes zPlain).1 =
      (List.range mRes.num_quantizers).foldl
        (fun acc k => add3 acc (stageQ sZero mRes zPlain k)) (zeros3 zPlain) ∧
    (forward sZero mRes zPlain).2.1 =
      ((List.range mRes.num_quantizers).map (stageLoss sZero mRes zPlain)).sum /
        (mRes.num_quantizers : ℚ) ∧
    (forward sZero mRes zPlain).2.2 =
      IdxOut.stacked (stackLast
        ((List.range mRes.num_quantizers).map (stageIdx sZero mRes zPlain))) :=
  ⟨rfl, by decide, by decide, rfl,
   residual_forward_decomposition sZero mRes zPlain 1 1 1 rfl (by decide)
    (by decide) rfl (by decide) (by decide) (by decide) (by decide)⟩

theorem sumSq_map_div (v : T1) (c : ℚ) :
    sumSq (v.map (fun x => x / c)) = sumSq v / c ^ 2 := by
  unfold sumSq
  induction v with
  | nil => simp
  | cons x v ih =>
    simp only [List.map_cons, List.sum_cons]
    rw [ih, div_pow, add_div]

/-- When the square root is exact and the computed norm is at least the
clamp `normEps`, `F.normalize` returns a vector of unit sum of squares. -/
theorem sumSq_normalizeVec (s : ℚ → ℚ) (v : T1)
    (hs : s (sumSq v) ^ 2 = sumSq v) (heps : normEps ≤ s (sumSq v)) :
    sumSq (normalizeVec s v) = 1 := by
  have heps0 : (0 : ℚ) < normEps := by norm_num [normEps]
  have hpos : 0 < s (sumSq v) := lt_of_lt_of_le heps0 heps
  have h0 : sumSq v ≠ 0 := by
    rw [← hs]
    positivity
  unfold normalizeVec
  rw [max_eq_left heps, sumSq_map_div, hs]
  exact div_self h0

/-- C8 as stated is false on the code: `F.normalize` divides by
`max(norm, eps)` with `eps = 10 ^ (-12)`, so a nonzero codebook row whose
norm is below `eps` is scaled by `1 / eps` instead of its true norm and the
returned vector is not unit.  At `mTiny` (`use_norm = true`, selected
codebook row `[10 ^ (-13)]`, nonzero) the returned vector is `[1 / 10]`,
whose sum of squares is `1 / 100`, not 1 (unit L2 norm is equivalent to
unit sum of squares).  `sTiny` agrees with the exact square root on every
norm computed in this instance. -/
theorem norm_unit_counterexample :
    mTiny.use_norm = true ∧
    entry2 (quantize sTiny mTiny zTiny).2.2 0 0 = some 0 ∧
    mTiny.weight.getD 0 [] = [1 / 10 ^ 13] ∧
    (1 / 10 ^ 13 : ℚ) ≠ 0 ∧
    entry2 (quantize sTiny mTiny zTiny).1 0 0 = some [1 / 10] ∧
    sumSq [(1 / 10 : ℚ)] ≠ 1 := by
  refine ⟨rfl, ?_, by norm_num [mTiny, mPlain], by norm_num, ?_, by norm_num [sumSq]⟩
  · norm_num [quantize, entry2, chunk, chunkGo, viewFlat, flatten3, normF,
      normalizeVec, normEps, mTiny, mPlain, zTiny, sTiny, argminIdx, distRow,
      sumSq, dot, List.argmin, List.argAux, List.range_succ]
  · norm_num [quantize, entry2, chunk, chunkGo, viewFlat, flatten3, normF,
      normalizeVec, normEps, mTiny, mPlain, zTiny, sTiny, argminIdx, distRow,
      sumSq, dot, List.argmin, List.argAux, List.range_succ]

/-- C8 (amended): when `use_norm` is true, a last-dimension vector of the
first component returned by `VectorQuantizer.quantize` has unit Euclidean
norm (unit sum of squares) provided the selected codebook row's computed
L2 norm is exact and at least the `F.normalize` clamp `normEps`; a nonzero
row below the clamp escapes this (see the counterexample). -/
theorem quantize_norm_unit (s : ℚ → ℚ) (m : VQ) (z : T3)
    (hu : m.use_norm = true) (i j n : Nat)
    (hidx : entry2 (quantize s m z).2.2 i j = some n)
    (hs : s (sumSq (m.weight.getD n [])) ^ 2 = sumSq (m.weight.getD n []))
    (heps : normEps ≤ s (sumSq (m.weight.getD n []))) :
    ∃ v, entry2 (quantize s m z).1 i j = some v ∧ sumSq v = 1 := by
  refine ⟨normF m.use_norm s (m.weight.getD n []), ?_, ?_⟩
  · rw [quantize_fst, entry2_map, hidx]
    rfl
  · rw [hu]
    unfold normF
    rw [if_pos rfl]
    exact sumSq_normalizeVec s _ hs heps

/-- Witness for the amended C8 at `mNorm` / `zNorm`: the selected row
`[3, 4]` has exact norm 5 above the clamp, and the returned vector
`[3 / 5, 4 / 5]` has unit sum of squares. -/
theorem quantize_norm_unit_witness :
    mNorm.use_norm = true ∧
    entry2 (quantize sNorm mNorm zNorm).2.2 0 0 = some 0 ∧
    sNorm (sumSq (mNorm.weight.getD 0 [])) ^ 2 = sumSq (mNorm.weight.getD 0 []) ∧
    normEps ≤ sNorm (sumSq (mNorm.weight.getD 0 [])) ∧
    ∃ v, entry2 (quantize sNorm mNorm zNorm).1 0 0 = some v ∧ sumSq v = 1 :=
  ⟨rfl,
   by norm_num [quantize, entry2, chunk, chunkGo, viewFlat, flatten3, normF,
     normalizeVec, normEps, mNorm, mPlain, zNorm, sNorm, argminIdx, distRow,
     sumSq, dot, List.argmin, List.argAux, List.range_succ],
   by norm_num [mNorm, mPlain, sNorm, sumSq],
   by norm_num [mNorm, mPlain, sNorm, sumSq, normEps],
   quantize_norm_unit sNorm mNorm zNorm rfl 0 0 0
    (by norm_num [quantize, entry2, chunk, chunkGo, viewFlat, flatten3, normF,
      normalizeVec, normEps, mNorm, mPlain, zNorm, sNorm, argminIdx, distRow,
      sumSq, dot, List.argmin, List.argAux, List.range_succ])
    (by norm_num [mNorm, mPlain, sNorm, sumSq])
    (by norm_num [mNorm, mPlain, sNorm, sumSq, normEps])⟩

/-- One quantize call at heap level only appends a fresh buffer, so every
existing buffer is untouched. -/
theorem quantizeH_frame (s : ℚ → ℚ) (m : VQ) (t : Nat) (h : Heap)
    (zi wi i : Nat) (hi : i < h.length) :
    ((quantizeH s m t h zi wi).1)[i]? = h[i]? := by
  simp only [quantizeH]
  exact List.getElem?_append_left hi

theorem quantizeH_length (s : ℚ → ℚ) (m : VQ) (t : Nat) (h : Heap)
    (zi wi : Nat) : (quantizeH s m t h zi wi).1.length = h.length + 1 := by
  simp [quantizeH]

/-- The in-place writes of the residual loop target only the `residual`
and `z_q` buffers; every other existing buffer is untouched. -/
theorem resLoopH_frame (s : ℚ → ℚ) (m : VQ) (t wi : Nat) :
    ∀ (k : Nat) (h : Heap) (rz zq i : Nat), i < h.length → rz ≠ i → zq ≠ i →
      ((resLoopH s m t wi k h rz zq).1)[i]? = h[i]? := by
  intro k
  induction k with
  | zero => intro h rz zq i _ _ _; rfl
  | succ k ih =>
    intro h rz zq i hi hrz hzq
    simp only [resLoopH]
    have hic : i < (h ++ [h.getD rz []]).length := by
      simp only [List.length_append, List.length_cons, List.length_nil]
      omega
    have hiq : i <
        ((quantizeH s m t (h ++ [h.getD rz []]) h.length wi).1).length := by
      rw [quantizeH_length]
      omega
    have hi3 : i < (((quantizeH s m t (h ++ [h.getD rz []]) h.length wi).1).set
        rz (subVec (((quantizeH s m t (h ++ [h.getD rz []]) h.length wi).1).getD rz [])
          (((quantizeH s m t (h ++ [h.getD rz []]) h.length wi).1).getD
            ((quantizeH s m t (h ++ [h.getD rz []]) h.length wi).2.1) []))).length := by
      rw [List.length_set]
      exact hiq
    rw [ih _ rz zq i (by rw [List.length_set]; exact hi3) hrz hzq]
    rw [List.getElem?_set_ne hzq, List.getElem?_set_ne hrz,
      quantizeH_frame s m t _ _ _ i hic, List.getElem?_append_left hi]

/-- C9: `forward` never mutates its input tensor nor the codebook weight:
in residual mode the in-place `sub_` and `add_` write only the freshly
allocated `residual` clone and `z_q` accumulator, and the straight-through
line allocates a new buffer, so after the call the buffers of `z` and of
`embedding.weight` hold the same values as before. -/
theorem forward_no_mutation (s : ℚ → ℚ) (m : VQ) (t : Nat) (h0 : Heap)
    (zi wi : Nat) (hz : zi < h0.length) (hw : wi < h0.length) :
    ((forwardHeap s m t h0 zi wi).1)[zi]? = h0[zi]? ∧
    ((forwardHeap s m t h0 zi wi).1)[wi]? = h0[wi]? := by
  suffices hgen : ∀ i, i < h0.length →
      ((forwardHeap s m t h0 zi wi).1)[i]? = h0[i]? from
    ⟨hgen zi hz, hgen wi hw⟩
  intro i hi
  simp only [forwardHeap]
  cases hres : m.use_residual with
  | false =>
    rw [if_pos (by simp)]
    have hq := quantizeH_frame s m t h0 zi wi i hi
    cases hst : m.straight_through with
    | false =>
      rw [if_neg (by simp)]
      exact hq
    | true =>
      rw [if_pos rfl]
      have hiq : i < ((quantizeH s m t h0 zi wi).1).length := by
        rw [quantizeH_length]
        omega
      rw [List.getElem?_append_left hiq]
      exact hq
  | true =>
    rw [if_neg (by simp)]
    have hh2 : ((h0 ++ [(h0.getD zi []).map (fun _ => (0 : ℚ))]) ++
        [h0.getD zi []])[i]? = h0[i]? := by
      rw [List.getElem?_append_left (by simp; omega),
        List.getElem?_append_left hi]
    have hr := resLoopH_frame s m t wi m.num_quantizers
      ((h0 ++ [(h0.getD zi []).map (fun _ => (0 : ℚ))]) ++ [h0.getD zi []])
      ((h0 ++ [(h0.getD zi []).map (fun _ => (0 : ℚ))]).length) h0.length i
      (by simp; omega) (by simp; omega) (by omega)
    cases hst : m.straight_through with
    | false =>
      rw [if_neg (by simp)]
      rw [hr, hh2]
    | true =>
      rw [if_pos rfl]
      have hisome : i < (resLoopH s m t wi m.num_quantizers
          ((h0 ++ [(h0.getD zi []).map (fun _ => (0 : ℚ))]) ++ [h0.getD zi []])
          ((h0 ++ [(h0.getD zi []).map (fun _ => (0 : ℚ))]).length)
          h0.length).1.length := by
        have hsm : (resLoopH s m t wi m.num_quantizers
            ((h0 ++ [(h0.getD zi []).map (fun _ => (0 : ℚ))]) ++ [h0.getD zi []])
            ((h0 ++ [(h0.getD zi []).map (fun _ => (0 : ℚ))]).length)
            h0.length).1[i]? = some h0[i] := by
          rw [hr, hh2]
          exact List.getElem?_eq_getElem hi
        obtain ⟨hlt, _⟩ := List.getElem?_eq_some_iff.mp hsm
        exact hlt
      rw [List.getElem?_append_left hisome, hr, hh2]

/-- Witness for C9 on the two-buffer heap `heap0` with the residual module
`mRes`: after `forward`, buffers 0 (input) and 1 (codebook) are unchanged. -/
theorem forward_no_mutation_witness :
    0 < heap0.length ∧ 1 < heap0.length ∧
    ((forwardHeap sZero mRes 1 heap0 0 1).1)[0]? = heap0[0]? ∧
    ((forwardHeap sZero mRes 1 heap0 0 1).1)[1]? = heap0[1]? :=
  ⟨by decide, by decide,
   (forward_no_mutation sZero mRes 1 heap0 0 1 (by decide) (by decide)).1,
   (forward_no_mutation sZero mRes 1 heap0 0 1 (by decide) (by decide)).2⟩

/-- C5 concerns a code bug: constructing `GumbelQuantizer` never succeeds.
`__init__` executes `self.straight_through = straight_through`, but
`straight_through` is not one of its parameters and is bound nowhere in
scope, so every construction attempt, with any arguments, raises
`NameError` instead of yielding the quantizer. -/
theorem gumbel_init_raises (embed_dim n_embed : Nat)
    (temp_init kl_weight : ℚ) (use_norm use_residual : Bool)
    (num_quantizers : Nat) :
    gumbelInit embed_dim n_embed temp_init kl_weight use_norm use_residual
        num_quantizers =
      Except.error "NameError: name straight_through is not defined" := rfl

end Quantizers
